import Mathlib

/-!
# Verification of the Mangos utility library (mangos.h)

Shallow embedding of the string-tokenization / trimming / joining engine and
the fixed-array helpers of mangos.h, with proofs of the specified properties.

Text is modelled as List Char (the C++ code operates byte-wise on
single-byte characters).  The C++ search primitives return the sentinel
npos = SIZE_MAX on failure; we model their results as Option Nat, where
none stands for the sentinel.  std::string::substr(pos) throws
std::out_of_range when pos exceeds the string length (in particular at the
npos sentinel), which we model with Except.
-/

set_option autoImplicit false

namespace mangos

/-- The constant WHITESPACE of mangos.h: space, tab, newline, carriage return. -/
def whitespace : List Char := [' ', '\t', '\n', '\r']

namespace string

/-- C++ str.find_first_of(del): index of the first character of str that is a
member of the character set del; none models the npos sentinel. -/
def findFirstOf (s del : List Char) : Option Nat :=
  match s with
  | [] => none
  | c :: t => if c ∈ del then some 0 else (findFirstOf t del).map (· + 1)

/-- C++ str.find(del): index of the first occurrence of del as a contiguous
substring of str; none models the npos sentinel.  As in C++, an empty del is
found at index 0. -/
def find (s del : List Char) : Option Nat :=
  if del <+: s then some 0
  else
    match s with
    | [] => none
    | _ :: t => (find t del).map (· + 1)

/-- The search of one iteration of the split loop (mangos.h line 129):
str.find_first_of(del) in set mode, str.find(del) in literal mode. -/
def splitFound (str del : List Char) (multiple : Bool) : Option Nat :=
  if multiple then findFirstOf str del else find str del

/-- The candidate token of one iteration of the split loop (line 130):
the whole remainder when the search fails, else the part before the match. -/
def splitToken (str del : List Char) (multiple : Bool) : List Char :=
  match splitFound str del multiple with
  | none => str
  | some i => str.take i

/-- The remaining suffix after one iteration of the split loop (line 131):
empty when the search fails, else the remainder past the match, where the
GNU idiom (multiple ?: del.length()) advances by one character in set mode
and by the length of del in literal mode. -/
def splitRest (str del : List Char) (multiple : Bool) : List Char :=
  match splitFound str del multiple with
  | none => []
  | some i => str.drop (i + (if multiple then 1 else del.length))

/-- The while-loop of split (lines 128-135), with an explicit iteration bound
so that the definition is structural.  splitRest strictly shortens the string
whenever del is non-empty (theorem splitRest_length_lt below), so a bound of
str.length iterations is exact; splitGo instantiates it and the fixed-point
equation splitGo_eq recovers the unbounded loop. -/
def splitLoop : Nat → List Char → List Char → Bool → List (List Char)
  | 0, _, _, _ => []
  | fuel + 1, str, del, multiple =>
    if str = [] then []
    else
      (if splitToken str del multiple = [] then [] else [splitToken str del multiple])
        ++ splitLoop fuel (splitRest str del multiple) del multiple

/-- The split loop run to completion from a given string. -/
def splitGo (str del : List Char) (multiple : Bool) : List (List Char) :=
  splitLoop str.length str del multiple

/-- C++ mangos::string::split (lines 122-138).  The two REQUIRES assertions
(str and del non-empty) abort the program when violated; we model the abort
as none, and a normal return as some. -/
def split (str del : List Char) (multiple : Bool) : Option (List (List Char)) :=
  if 0 < str.length ∧ 0 < del.length then some (splitGo str del multiple) else none

/-- C++ mangos::string::join (lines 149-156): concatenate, inserting sep
between adjacent elements only. -/
def join : List (List Char) → List Char → List Char
  | [], _ => []
  | [t], _ => t
  | t :: ts, sep => t ++ sep ++ join ts sep

/-- C++ str.find_first_not_of(set): index of the first character of str that
is not a member of set; none models the npos sentinel. -/
def findFirstNotOf (s set : List Char) : Option Nat :=
  match s with
  | [] => none
  | c :: t => if c ∈ set then (findFirstNotOf t set).map (· + 1) else some 0

/-- C++ str.find_last_not_of(set): index of the last character of str that
is not a member of set; none models the npos sentinel. -/
def findLastNotOf (s set : List Char) : Option Nat :=
  match s with
  | [] => none
  | c :: t =>
    match findLastNotOf t set with
    | some i => some (i + 1)
    | none => if c ∈ set then none else some 0

/-- C++ mangos::string::trim (lines 185-189).
Line 186 computes str.substr(str.find_first_not_of(WHITESPACE)); when the
search fails it returns the npos sentinel, npos exceeds the string length,
and substr(pos) with pos greater than the length throws std::out_of_range —
modelled as Except.error ().  Line 187 computes
str.substr(0, str.find_last_not_of(WHITESPACE) + 1); there a failed search
yields npos + 1 = 0 by size_t wraparound, hence the take of 0 characters. -/
def trim (str : List Char) : Except Unit (List Char) :=
  match findFirstNotOf str whitespace with
  | none => .error ()
  | some i =>
    let s := str.drop i
    let stop :=
      match findLastNotOf s whitespace with
      | none => 0
      | some j => j + 1
    .ok (s.take stop)

end string

namespace array

/-- One std::swap(arr[i], arr[j]) on the list model; both indices are in
bounds at every call site of the reverse loop. -/
def swapIdx {α : Type} (l : List α) (i j : Nat) : List α :=
  match l[i]?, l[j]? with
  | some a, some b => (l.set i b).set j a
  | _, _ => l

/-- The loop of mangos::array::reverse (lines 56-57): starting at index n,
perform the given number of swaps of positions n and length - n - 1. -/
def revAux {α : Type} (l : List α) (n : Nat) : Nat → List α
  | 0 => l
  | fuel + 1 => revAux (swapIdx l n (l.length - n - 1)) (n + 1) fuel

/-- C++ mangos::array::reverse (lines 54-58): swap element n with element
size - n - 1 for n in [0, size / 2). -/
def reverse {α : Type} (l : List α) : List α :=
  revAux l 0 (l.length / 2)

end array

/-- del occurs in text at position i: del is a prefix of the suffix of text
starting at i. -/
abbrev occursAt (del text : List Char) (i : Nat) : Prop :=
  del <+: text.drop i

/-- text contains no leading, trailing, or consecutive occurrences of del:
no occurrence at position 0, none ending at the end of text, and no
occurrence immediately followed by another. -/
abbrev wellSeparated (text del : List Char) : Prop :=
  ¬ occursAt del text 0 ∧
  ¬ occursAt del text (text.length - del.length) ∧
  ∀ i, i < text.length → occursAt del text i → ¬ occursAt del text (i + del.length)

/-- A text consisting of exactly n back-to-back copies of del. -/
def delimReplicate (del : List Char) : Nat → List Char
  | 0 => []
  | n + 1 => del ++ delimReplicate del n

end mangos

namespace mangos

namespace string

/-- The advance of the split cursor is at least one character in both modes
(one in set mode, the length of the non-empty del in literal mode). -/
theorem splitAdvance_pos (del : List Char) (m : Bool) (hd : del ≠ []) :
    1 ≤ (if m then 1 else del.length) := by
  cases m
  · simpa using List.length_pos.mpr hd
  · simp

/-- Each iteration of the split loop strictly shortens the remaining suffix
whenever the string is non-empty and the delimiter is non-empty. -/
theorem splitRest_length_lt (str del : List Char) (m : Bool)
    (hs : str ≠ []) (hd : del ≠ []) :
    (splitRest str del m).length < str.length := by
  unfold splitRest
  cases h : splitFound str del m with
  | none => simpa using List.length_pos.mpr hs
  | some i =>
    simp only [List.length_drop]
    have h1 := splitAdvance_pos del m hd
    have h2 := List.length_pos.mpr hs
    omega

/-- Any iteration bound at least the length of the string gives the split
loop enough iterations: the result no longer depends on the bound. -/
theorem splitLoop_congr (del : List Char) (m : Bool) (hd : del ≠ []) :
    ∀ f₁ f₂ str, str.length ≤ f₁ → str.length ≤ f₂ →
      splitLoop f₁ str del m = splitLoop f₂ str del m := by
  intro f₁
  induction f₁ with
  | zero =>
    intro f₂ str h1 _
    have hstr : str = [] := List.eq_nil_of_length_eq_zero (Nat.le_zero.mp h1)
    subst hstr
    cases f₂ <;> simp [splitLoop]
  | succ a ih =>
    intro f₂ str h1 h2
    cases f₂ with
    | zero =>
      have hstr : str = [] := List.eq_nil_of_length_eq_zero (Nat.le_zero.mp h2)
      subst hstr
      simp [splitLoop]
    | succ b =>
      by_cases hs : str = []
      · subst hs; simp [splitLoop]
      · simp only [splitLoop, if_neg hs]
        have hlt := splitRest_length_lt str del m hs hd
        rw [ih b (splitRest str del m) (by omega) (by omega)]

/-- The fixed-point equation of the split loop: this is exactly the body of
the C++ while-loop, so splitGo is the loop run to completion. -/
theorem splitGo_eq (str del : List Char) (m : Bool) (hd : del ≠ []) :
    splitGo str del m =
      if str = [] then []
      else
        (if splitToken str del m = [] then [] else [splitToken str del m])
          ++ splitGo (splitRest str del m) del m := by
  by_cases hs : str = []
  · subst hs; simp [splitGo, splitLoop]
  · rw [if_neg hs]
    unfold splitGo
    have hpos : 0 < str.length := List.length_pos.mpr hs
    obtain ⟨k, hk⟩ : ∃ k, str.length = k + 1 := ⟨str.length - 1, by omega⟩
    rw [hk]
    simp only [splitLoop, if_neg hs]
    congr 1
    have hlt := splitRest_length_lt str del m hs hd
    exact splitLoop_congr del m hd k (splitRest str del m).length (splitRest str del m)
      (by omega) le_rfl

/-- With both preconditions satisfied, split returns normally with the value
computed by the loop. -/
theorem split_eq_some (str del : List Char) (m : Bool) (hs : str ≠ []) (hd : del ≠ []) :
    split str del m = some (splitGo str del m) := by
  unfold split
  rw [if_pos ⟨List.length_pos.mpr hs, List.length_pos.mpr hd⟩]

end string

end mangos

namespace mangos

namespace string

/-- If the literal search succeeds at index i, then del occurs at i. -/
theorem find_some_occurs (s del : List Char) :
    ∀ i, find s del = some i → del <+: s.drop i := by
  induction s with
  | nil =>
    intro i h
    unfold find at h
    by_cases hp : del <+: ([] : List Char)
    · rw [if_pos hp] at h
      cases h
      simpa using hp
    · rw [if_neg hp] at h
      cases h
  | cons c t ih =>
    intro i h
    unfold find at h
    by_cases hp : del <+: c :: t
    · rw [if_pos hp] at h
      cases h
      simpa using hp
    · rw [if_neg hp] at h
      simp only [Option.map_eq_some'] at h
      obtain ⟨j, hj, rfl⟩ := h
      simpa using ih j hj

/-- If the literal search fails, del occurs nowhere in s. -/
theorem find_none_not_occurs (s del : List Char) (h : find s del = none) :
    ∀ i, ¬ del <+: s.drop i := by
  induction s with
  | nil =>
    intro i hp
    unfold find at h
    by_cases hq : del <+: ([] : List Char)
    · rw [if_pos hq] at h
      cases h
    · exact hq (by simpa using hp)
  | cons c t ih =>
    intro i hp
    unfold find at h
    by_cases hq : del <+: c :: t
    · rw [if_pos hq] at h
      cases h
    · rw [if_neg hq] at h
      simp only [Option.map_eq_none'] at h
      cases i with
      | zero => exact hq (by simpa using hp)
      | succ j => exact ih h j (by simpa using hp)

/-- The literal search finds a prefix occurrence immediately, at index 0. -/
theorem find_of_pre_zero (s del : List Char) (h : del <+: s) :
    find s del = some 0 := by
  unfold find
  rw [if_pos h]

/-- del occurs somewhere in s exactly when it is an infix of s. -/
theorem exists_occurrence_iff (s del : List Char) :
    (∃ i, del <+: s.drop i) ↔ del <:+: s := by
  constructor
  · rintro ⟨i, t, ht⟩
    refine ⟨s.take i, t, ?_⟩
    rw [List.append_assoc, ht, List.take_append_drop]
  · rintro ⟨u, t, ht⟩
    refine ⟨u.length, t, ?_⟩
    rw [← ht, List.append_assoc, List.drop_left]

/-- If the set search fails, no character of s belongs to the set del. -/
theorem findFirstOf_none (s del : List Char) (h : findFirstOf s del = none) :
    ∀ c ∈ s, c ∉ del := by
  induction s with
  | nil => intro c hc; cases hc
  | cons a t ih =>
    intro c hc
    unfold findFirstOf at h
    by_cases ha : a ∈ del
    · rw [if_pos ha] at h
      cases h
    · rw [if_neg ha] at h
      simp only [Option.map_eq_none'] at h
      rcases List.mem_cons.mp hc with rfl | hc
      · exact ha
      · exact ih h c hc

/-- If the set search succeeds at index i, the character at i belongs to the
set del and no earlier character does: i is the first occurrence of any
character of the set. -/
theorem findFirstOf_some (s del : List Char) :
    ∀ i, findFirstOf s del = some i →
      (∃ c, s[i]? = some c ∧ c ∈ del) ∧
      ∀ j, j < i → ∀ c, s[j]? = some c → c ∉ del := by
  induction s with
  | nil => intro i h; cases h
  | cons a t ih =>
    intro i h
    unfold findFirstOf at h
    by_cases ha : a ∈ del
    · rw [if_pos ha] at h
      cases h
      exact ⟨⟨a, by simp, ha⟩, fun j hj c _ => absurd hj (by omega)⟩
    · rw [if_neg ha] at h
      simp only [Option.map_eq_some'] at h
      obtain ⟨j, hj, rfl⟩ := h
      obtain ⟨⟨c, hc, hcd⟩, hfirst⟩ := ih j hj
      refine ⟨⟨c, by simpa using hc, hcd⟩, ?_⟩
      intro k hk d hd
      cases k with
      | zero =>
        have : a = d := by simpa using hd
        subst this
        exact ha
      | succ k => exact hfirst k (by omega) d (by simpa using hd)

/-- The set search of a one-character set coincides with the literal search
of the one-character string. -/
theorem find_singleton (s : List Char) (c : Char) :
    findFirstOf s [c] = find s [c] := by
  induction s with
  | nil =>
    have : ¬ ([c] <+: ([] : List Char)) := by simp
    unfold findFirstOf find
    rw [if_neg this]
  | cons a t ih =>
    unfold findFirstOf find
    by_cases ha : a ∈ [c]
    · have hc : c = a := by simpa [eq_comm] using ha
      rw [if_pos ha, if_pos (by simp [hc])]
    · have hc : ¬ ([c] <+: a :: t) := by
        intro hp
        exact ha (by simpa [eq_comm] using (List.cons_prefix_cons.mp hp).1)
      rw [if_neg ha, if_neg hc, ih]

end string

end mangos

namespace mangos

namespace string

/-- A one-character delimiter makes the two modes compute the same search
result, token and rest at every iteration, so the whole loops agree. -/
theorem splitGo_singleton (c : Char) :
    ∀ n str, str.length ≤ n → splitGo str [c] true = splitGo str [c] false := by
  intro n
  induction n with
  | zero =>
    intro str h
    have hstr : str = [] := List.eq_nil_of_length_eq_zero (Nat.le_zero.mp h)
    subst hstr
    rfl
  | succ k ih =>
    intro str h
    by_cases hs : str = []
    · subst hs; rfl
    · have hf : splitFound str [c] true = splitFound str [c] false := by
        simp [splitFound, find_singleton]
      have ht : splitToken str [c] true = splitToken str [c] false := by
        unfold splitToken; rw [hf]
      have hr : splitRest str [c] true = splitRest str [c] false := by
        unfold splitRest; rw [hf]; simp
      rw [splitGo_eq str [c] true (by simp), splitGo_eq str [c] false (by simp),
        if_neg hs, if_neg hs, ht, hr,
        ih (splitRest str [c] false)
          (by have := splitRest_length_lt str [c] false hs (by simp); omega)]

/-- When the search of an iteration fails on a non-empty string, that string
becomes the one final token. -/
theorem splitGo_of_found_none (str del : List Char) (m : Bool) (hs : str ≠ []) (hd : del ≠ [])
    (hf : splitFound str del m = none) : splitGo str del m = [str] := by
  rw [splitGo_eq str del m hd, if_neg hs]
  have ht : splitToken str del m = str := by unfold splitToken; rw [hf]
  have hr : splitRest str del m = [] := by unfold splitRest; rw [hf]
  rw [ht, hr, if_neg hs]
  simp [splitGo, splitLoop]

/-- The empty list is never a member of the split result: empty candidate
tokens are discarded before being pushed. -/
theorem splitGo_not_mem_nil (del : List Char) (m : Bool) (hd : del ≠ []) :
    ∀ n str, str.length ≤ n → [] ∉ splitGo str del m := by
  intro n
  induction n with
  | zero =>
    intro str h
    have hstr : str = [] := List.eq_nil_of_length_eq_zero (Nat.le_zero.mp h)
    subst hstr
    simp [splitGo, splitLoop]
  | succ k ih =>
    intro str h
    by_cases hs : str = []
    · subst hs; simp [splitGo, splitLoop]
    · rw [splitGo_eq str del m hd, if_neg hs]
      intro hmem
      rcases List.mem_append.mp hmem with h1 | h2
      · by_cases ht : splitToken str del m = []
        · rw [if_pos ht] at h1; cases h1
        · rw [if_neg ht] at h1
          exact ht (List.mem_singleton.mp h1).symm
      · exact ih (splitRest str del m)
          (by have := splitRest_length_lt str del m hs hd; omega) h2

/-- In set mode, a string all of whose characters belong to the delimiter set
produces no tokens: every candidate is empty and is discarded. -/
theorem splitGo_all_mem (del : List Char) (hd : del ≠ []) :
    ∀ n str, str.length ≤ n → (∀ c ∈ str, c ∈ del) → splitGo str del true = [] := by
  intro n
  induction n with
  | zero =>
    intro str h _
    have hstr : str = [] := List.eq_nil_of_length_eq_zero (Nat.le_zero.mp h)
    subst hstr
    rfl
  | succ k ih =>
    intro str h hall
    by_cases hs : str = []
    · subst hs; rfl
    · obtain ⟨a, t, rfl⟩ : ∃ a t, str = a :: t := by
        cases str with
        | nil => exact absurd rfl hs
        | cons a t => exact ⟨a, t, rfl⟩
      have hf : splitFound (a :: t) del true = some 0 := by
        simp [splitFound, findFirstOf, hall a (by simp)]
      have ht : splitToken (a :: t) del true = [] := by
        unfold splitToken; rw [hf]; rfl
      have hr : splitRest (a :: t) del true = t := by
        unfold splitRest; rw [hf]; simp
      rw [splitGo_eq _ del true hd, if_neg hs, ht, hr]
      simp only [if_pos rfl, List.nil_append]
      have hlen : t.length ≤ k := by
        simp only [List.length_cons] at h; omega
      exact ih t hlen (fun c hc => hall c (by simp [hc]))

/-- In literal mode, a string that is a back-to-back repetition of the
delimiter produces no tokens. -/
theorem splitGo_delimReplicate (del : List Char) (hd : del ≠ []) :
    ∀ n, splitGo (delimReplicate del n) del false = [] := by
  intro n
  induction n with
  | zero => rfl
  | succ k ih =>
    have hs : delimReplicate del (k + 1) ≠ [] := by
      simp [delimReplicate, hd]
    have hf : splitFound (delimReplicate del (k + 1)) del false = some 0 := by
      have : del <+: delimReplicate del (k + 1) := by
        simp [delimReplicate]
      simp [splitFound, find_of_pre_zero _ del this]
    have ht : splitToken (delimReplicate del (k + 1)) del false = [] := by
      unfold splitToken; rw [hf]; rfl
    have hr : splitRest (delimReplicate del (k + 1)) del false = delimReplicate del k := by
      unfold splitRest; rw [hf]
      simp [delimReplicate, List.drop_left]
    rw [splitGo_eq _ del false hd, if_neg hs, ht, hr]
    simp [ih]

end string

end mangos

namespace mangos

namespace string

/-- Claim C1 (code_bug evidence): trim of all-whitespace text and trim of
empty text both hit the npos sentinel of find_first_not_of, and
substr(npos) raises std::out_of_range instead of returning empty text; the
non-degenerate example trim of the text "  hi  " does return "hi". -/
theorem trim_degenerate_input_raises :
    trim [' ', ' ', ' '] = .error () ∧
    trim [] = .error () ∧
    trim [' ', ' ', 'h', 'i', ' ', ' '] = .ok ['h', 'i'] :=
  ⟨rfl, rfl, rfl⟩

/-- Claim C2: in set mode, split treats the delimiter as a set of
characters: the search yields the first index whose character belongs to
the set, the token of the iteration is the text before that index, and the
cursor advances past the match by exactly one character; in particular
splitting "a b  c" on " " in set mode gives ["a", "b", "c"]. -/
theorem split_set_mode_spec (str del : List Char) (hs : str ≠ []) (hd : del ≠ []) :
    split str del true = some (splitGo str del true) ∧
    (∀ i, findFirstOf str del = some i →
      (∃ c, str[i]? = some c ∧ c ∈ del) ∧
      (∀ j, j < i → ∀ c, str[j]? = some c → c ∉ del) ∧
      splitGo str del true =
        (if str.take i = [] then [] else [str.take i])
          ++ splitGo (str.drop (i + 1)) del true) ∧
    (findFirstOf str del = none → splitGo str del true = [str]) ∧
    split ['a', ' ', 'b', ' ', ' ', 'c'] [' '] true = some [['a'], ['b'], ['c']] := by
  refine ⟨split_eq_some str del true hs hd, ?_, ?_, by decide⟩
  · intro i hi
    obtain ⟨h1, h2⟩ := findFirstOf_some str del i hi
    refine ⟨h1, h2, ?_⟩
    have hf : splitFound str del true = some i := by simp [splitFound, hi]
    have ht : splitToken str del true = str.take i := by unfold splitToken; rw [hf]
    have hr : splitRest str del true = str.drop (i + 1) := by
      unfold splitRest; rw [hf]; simp
    rw [splitGo_eq str del true hd, if_neg hs, ht, hr]
  · intro hn
    exact splitGo_of_found_none str del true hs hd (by simp [splitFound, hn])

/-- Claim C2 witness: the concrete set-mode example evaluated through the
theorem. -/
theorem split_set_mode_spec_witness :
    split ['a', ' ', 'b', ' ', ' ', 'c'] [' '] true = some [['a'], ['b'], ['c']] :=
  (split_set_mode_spec ['x'] ['y'] (by decide) (by decide)).2.2.2

/-- Claim C3: in both modes empty candidate tokens are discarded, so the
empty text never appears in the result; a delimiter that does not occur
(not an infix in literal mode, no character of the set present in set mode)
leaves the whole text as the single token; a text consisting entirely of
delimiters (a repetition of del in literal mode, all characters in the set
in set mode) gives the empty result; and splitting "a,,b" on "," gives
["a", "b"]. -/
theorem split_discards_empty_tokens (str del : List Char) (hs : str ≠ []) (hd : del ≠ []) :
    (∀ m ts, split str del m = some ts → [] ∉ ts) ∧
    (¬ del <:+: str → split str del false = some [str]) ∧
    ((∀ c ∈ str, c ∉ del) → split str del true = some [str]) ∧
    (∀ n, str = delimReplicate del (n + 1) → split str del false = some []) ∧
    ((∀ c ∈ str, c ∈ del) → split str del true = some []) ∧
    split ['a', ',', ',', 'b'] [','] false = some [['a'], ['b']] := by
  refine ⟨?_, ?_, ?_, ?_, ?_, by decide⟩
  · intro m ts hts
    rw [split_eq_some str del m hs hd] at hts
    cases hts
    exact splitGo_not_mem_nil del m hd str.length str le_rfl
  · intro hninf
    have hf : find str del = none := by
      cases hfind : find str del with
      | none => rfl
      | some i =>
        exact absurd ((exists_occurrence_iff str del).mp ⟨i, find_some_occurs str del i hfind⟩) hninf
    rw [split_eq_some str del false hs hd,
      splitGo_of_found_none str del false hs hd (by simp [splitFound, hf])]
  · intro hall
    have hf : findFirstOf str del = none := by
      cases hfind : findFirstOf str del with
      | none => rfl
      | some i =>
        obtain ⟨⟨c, hc, hcd⟩, _⟩ := findFirstOf_some str del i hfind
        exact absurd hcd (hall c (List.getElem?_mem hc))
    rw [split_eq_some str del true hs hd,
      splitGo_of_found_none str del true hs hd (by simp [splitFound, hf])]
  · intro n hrep
    rw [split_eq_some str del false hs hd, hrep, splitGo_delimReplicate del hd (n + 1)]
  · intro hall
    rw [split_eq_some str del true hs hd, splitGo_all_mem del hd str.length str le_rfl hall]

/-- Claim C3 witness: the concrete consecutive-delimiter example evaluated
through the theorem, together with a no-occurrence instance. -/
theorem split_discards_empty_tokens_witness :
    split ['a', ',', ',', 'b'] [','] false = some [['a'], ['b']] ∧
    split ['h', 'i'] [','] false = some [['h', 'i']] := by
  constructor
  · exact (split_discards_empty_tokens ['x'] ['y'] (by decide) (by decide)).2.2.2.2.2
  · exact (split_discards_empty_tokens ['h', 'i'] [','] (by decide) (by decide)).2.1 (by decide)

/-- Claim C4: split with empty text or empty delimiter violates a REQUIRES
assertion and aborts without returning a value (modelled as none); with
both preconditions satisfied no assertion fires and a value is returned. -/
theorem split_precondition_abort (str del : List Char) (m : Bool) :
    ((str = [] ∨ del = []) → split str del m = none) ∧
    (str ≠ [] → del ≠ [] → split str del m = some (splitGo str del m)) := by
  constructor
  · rintro (rfl | rfl) <;> simp [split]
  · exact split_eq_some str del m

/-- Claim C4 witness: both precondition violations abort and a well-formed
call returns, evaluated through the theorem. -/
theorem split_precondition_abort_witness :
    split [] [','] false = none ∧
    split ['a'] [] false = none ∧
    split ['a'] [','] false = some (splitGo ['a'] [','] false) :=
  ⟨(split_precondition_abort [] [','] false).1 (Or.inl rfl),
   (split_precondition_abort ['a'] [] false).1 (Or.inr rfl),
   (split_precondition_abort ['a'] [','] false).2 (by decide) (by decide)⟩

/-- Claim C8: the split loop terminates because each iteration strictly
shortens the remaining suffix; the loop satisfies the stated one-iteration
equation and the remainder of an iteration is strictly shorter than its
input, the remainder being empty when the search finds no match. -/
theorem split_iteration_decreases (str del : List Char) (m : Bool)
    (hs : str ≠ []) (hd : del ≠ []) :
    (splitRest str del m).length < str.length ∧
    (splitFound str del m = none → splitRest str del m = []) ∧
    splitGo str del m =
      (if splitToken str del m = [] then [] else [splitToken str del m])
        ++ splitGo (splitRest str del m) del m := by
  refine ⟨splitRest_length_lt str del m hs hd, ?_, ?_⟩
  · intro hf
    unfold splitRest
    rw [hf]
  · rw [splitGo_eq str del m hd, if_neg hs]

/-- Claim C8 witness: the strict decrease evaluated at a concrete
iteration. -/
theorem split_iteration_decreases_witness :
    (splitRest ['a', ',', 'b'] [','] false).length < (['a', ',', 'b'] : List Char).length :=
  (split_iteration_decreases ['a', ',', 'b'] [','] false (by decide) (by decide)).1

/-- Claim C9: for a one-character delimiter the two matching modes of split
coincide: finding any character of a one-element set is finding the literal
one-character substring, and both modes then advance by one character. -/
theorem split_modes_agree_singleton (str : List Char) (c : Char) (hs : str ≠ []) :
    split str [c] true = split str [c] false := by
  rw [split_eq_some str [c] true hs (by simp), split_eq_some str [c] false hs (by simp),
    splitGo_singleton c str.length str le_rfl]

/-- Claim C9 witness: mode agreement evaluated at a concrete input. -/
theorem split_modes_agree_singleton_witness :
    split ['a', ',', 'b'] [','] true = split ['a', ',', 'b'] [','] false :=
  split_modes_agree_singleton ['a', ',', 'b'] ',' (by decide)

end string

end mangos

namespace mangos

namespace string

/-- Join of a two-or-more-element list peels off the head token and one
separator. -/
theorem join_cons_of_ne_nil (t sep : List Char) (ts : List (List Char)) (h : ts ≠ []) :
    join (t :: ts) sep = t ++ sep ++ join ts sep := by
  cases ts with
  | nil => exact absurd rfl h
  | cons u ts2 => rfl

/-- Join is exactly List.intercalate: the separator appears once between
each adjacent pair of tokens, never before the first or after the last. -/
theorem join_eq_intercalate (ts : List (List Char)) (sep : List Char) :
    join ts sep = List.intercalate sep ts := by
  induction ts with
  | nil => simp [join, List.intercalate]
  | cons t rest ih =>
    cases rest with
    | nil => simp [join, List.intercalate]
    | cons u rest2 =>
      rw [join_cons_of_ne_nil t sep (u :: rest2) (by simp), ih]
      simp [List.intercalate, List.intersperse]

/-- Claim C6: join concatenates the tokens in order with exactly one copy
of the separator between each adjacent pair (none before the first, none
after the last) — it coincides with List.intercalate — and in particular
join of the empty list is empty, join of a singleton is its element, and
join of three tokens inserts two separators. -/
theorem join_intercalate_spec :
    (∀ ts sep, join ts sep = List.intercalate sep ts) ∧
    join [] [','] = [] ∧
    join [['a']] [','] = ['a'] ∧
    join [['a'], ['b'], ['c']] ['-'] = ['a', '-', 'b', '-', 'c'] :=
  ⟨join_eq_intercalate, rfl, rfl, rfl⟩

/-- A take of a non-zero count from a non-empty list is non-empty. -/
theorem take_ne_nil (str : List Char) (i : Nat) (hs : str ≠ []) (hi : i ≠ 0) :
    str.take i ≠ [] := by
  cases str with
  | nil => exact absurd rfl hs
  | cons a t =>
    cases i with
    | zero => exact absurd rfl hi
    | succ j => simp

/-- When the delimiter is not a prefix of a non-empty string, the first
candidate token of the literal-mode loop is non-empty, so the result list
is non-empty. -/
theorem splitGo_ne_nil (str del : List Char) (hs : str ≠ []) (hd : del ≠ [])
    (hlead : ¬ del <+: str) : splitGo str del false ≠ [] := by
  rw [splitGo_eq str del false hd, if_neg hs]
  cases hfind : find str del with
  | none =>
    have ht : splitToken str del false = str := by
      unfold splitToken; simp [splitFound, hfind]
    rw [ht, if_neg hs]
    simp
  | some i =>
    have hi : i ≠ 0 := by
      rintro rfl
      exact hlead (by simpa using find_some_occurs str del 0 hfind)
    have ht : splitToken str del false = str.take i := by
      unfold splitToken; simp [splitFound, hfind]
    rw [ht, if_neg (take_ne_nil str i hs hi)]
    simp

/-- The round-trip for the literal mode: on a text with no leading,
trailing, or consecutive occurrences of the delimiter, joining the split
with the same delimiter reconstructs the text. -/
theorem join_splitGo_roundtrip (del : List Char) (hd : del ≠ []) :
    ∀ n str, str.length ≤ n → str ≠ [] → wellSeparated str del →
      join (splitGo str del false) del = str := by
  intro n
  induction n with
  | zero =>
    intro str h hne _
    exact absurd (List.eq_nil_of_length_eq_zero (Nat.le_zero.mp h)) hne
  | succ k ih =>
    intro str hlen hne hws
    obtain ⟨hlead, htrail, hconsec⟩ := hws
    have hdl : 0 < del.length := List.length_pos.mpr hd
    cases hfind : find str del with
    | none =>
      rw [splitGo_of_found_none str del false hne hd (by simp [splitFound, hfind])]
      rfl
    | some i =>
      have hocc : del <+: str.drop i := find_some_occurs str del i hfind
      obtain ⟨r, hr⟩ := hocc
      have hi0 : i ≠ 0 := by
        rintro rfl
        exact hlead (by simpa using find_some_occurs str del 0 hfind)
      have hfound : splitFound str del false = some i := by simp [splitFound, hfind]
      have htok : splitToken str del false = str.take i := by
        unfold splitToken; rw [hfound]
      have hlen3 : del.length + r.length = str.length - i := by
        have := congrArg List.length hr
        simpa using this
      have hipos : i < str.length := by omega
      have hdrop1 : (str.drop i).drop del.length = r := by
        rw [← hr, List.drop_left]
      have hrest : splitRest str del false = r := by
        unfold splitRest
        rw [hfound]
        simp only [if_neg (Bool.false_ne_true)]
        rw [← List.drop_drop, hdrop1]
      have hdecomp : str = str.take i ++ del ++ r := by
        rw [List.append_assoc, hr, List.take_append_drop]
      have hdropall : ∀ j, str.drop (i + del.length + j) = r.drop j := by
        intro j
        rw [← List.drop_drop, ← List.drop_drop, hdrop1]
      have hrne : r ≠ [] := by
        rintro rfl
        have hieq : i = str.length - del.length := by
          simp only [List.length_nil] at hlen3
          omega
        have hx : occursAt del str i := ⟨[], hr⟩
        rw [hieq] at hx
        exact htrail hx
      have hwsr : wellSeparated r del := by
        refine ⟨?_, ?_, ?_⟩
        · intro h0
          have hA : del <+: str.drop (i + del.length) := by
            have := hdropall 0
            simp only [Nat.add_zero] at this
            rw [this]
            simpa using h0
          exact hconsec i hipos ⟨r, hr⟩ hA
        · intro hT
          by_cases hdr : del.length ≤ r.length
          · have hA : del <+: str.drop (i + del.length + (r.length - del.length)) := by
              rw [hdropall (r.length - del.length)]
              exact hT
            have heq : i + del.length + (r.length - del.length) = str.length - del.length := by
              omega
            exact htrail (heq ▸ hA)
          · have hz : r.length - del.length = 0 := by omega
            rw [hz] at hT
            exact hdr hT.length_le
        · intro j hj hoj hoj2
          have hA : del <+: str.drop (i + del.length + j) := by
            rw [hdropall j]; exact hoj
          have hB : del <+: str.drop (i + del.length + j + del.length) := by
            have h3 := hdropall (j + del.length)
            rw [show i + del.length + (j + del.length) = i + del.length + j + del.length
              by omega] at h3
            rw [h3]
            exact hoj2
          have hjlt : i + del.length + j < str.length := by omega
          exact hconsec (i + del.length + j) hjlt hA hB
      have hrlen : r.length ≤ k := by omega
      have hIH := ih r hrlen hrne hwsr
      have hrlead : ¬ del <+: r := by simpa using hwsr.1
      rw [splitGo_eq str del false hd, if_neg hne, htok, hrest,
        if_neg (take_ne_nil str i hne hi0), List.singleton_append,
        join_cons_of_ne_nil _ _ _ (splitGo_ne_nil r del hrne hd hrlead), hIH]
      exact hdecomp.symm

/-- Claim C5 counterexample: the empty text contains no leading, trailing,
or consecutive occurrences of the delimiter, yet split of the empty text is
a precondition violation that produces no value, so no join of its result
can equal the text. -/
theorem join_split_roundtrip_ctex :
    wellSeparated [] [','] ∧
    (split [] [','] false).map (fun ts => join ts [',']) = none := by
  exact ⟨by decide, rfl⟩

/-- Claim C5 (amended with non-empty text): for every non-empty text and
non-empty delimiter such that the text contains no leading, trailing, or
consecutive occurrences of the delimiter, joining the literal-mode split
with that delimiter returns the original text. -/
theorem join_split_roundtrip (text d : List Char) (hs : text ≠ []) (hd : d ≠ [])
    (hws : wellSeparated text d) :
    (split text d false).map (fun ts => join ts d) = some text := by
  rw [split_eq_some text d false hs hd]
  have hjoin : join (splitGo text d false) d = text :=
    join_splitGo_roundtrip d hd text.length text le_rfl hs hws
  simp [hjoin]

/-- Claim C5 witness: the round trip evaluated on a concrete well-separated
text. -/
theorem join_split_roundtrip_witness :
    (['a', ',', 'b'] : List Char) ≠ [] ∧ wellSeparated ['a', ',', 'b'] [','] ∧
    (split ['a', ',', 'b'] [','] false).map (fun ts => join ts [',']) =
      some ['a', ',', 'b'] :=
  ⟨by decide, by decide,
    join_split_roundtrip ['a', ',', 'b'] [','] (by decide) (by decide) (by decide)⟩

end string

end mangos

namespace mangos

namespace array

/-- Indexing past an appended prefix lands in the suffix. -/
theorem getElem?_append_add {α : Type} (a l : List α) (k : Nat) :
    (a ++ l)[a.length + k]? = l[k]? := by
  rw [List.getElem?_append_right (by omega)]
  congr 1
  omega

/-- Setting past an appended prefix updates the suffix. -/
theorem set_append_add {α : Type} (a l : List α) (k : Nat) (x : α) :
    (a ++ l).set (a.length + k) x = a ++ l.set k x := by
  rw [List.set_append]
  simp

/-- One outer swap exchanges the first and last elements of the middle
segment between a and b. -/
theorem swapIdx_outer {α : Type} (a : List α) (x : α) (m : List α) (y : α) (b : List α) :
    swapIdx (a ++ x :: (m ++ y :: b)) a.length (a.length + (m.length + 1)) =
      a ++ y :: (m ++ x :: b) := by
  have h1 : (a ++ x :: (m ++ y :: b))[a.length]? = some x := by
    simpa using getElem?_append_add a (x :: (m ++ y :: b)) 0
  have h2 : (a ++ x :: (m ++ y :: b))[a.length + (m.length + 1)]? = some y := by
    rw [getElem?_append_add, List.getElem?_cons_succ]
    simpa using getElem?_append_add m (y :: b) 0
  have hset1 : (a ++ x :: (m ++ y :: b)).set a.length y = a ++ y :: (m ++ y :: b) := by
    have h4 := set_append_add a (x :: (m ++ y :: b)) 0 y
    simp only [Nat.add_zero, List.set_cons_zero] at h4
    exact h4
  have hset2 : (a ++ y :: (m ++ y :: b)).set (a.length + (m.length + 1)) x =
      a ++ y :: (m ++ x :: b) := by
    rw [set_append_add]
    show a ++ y :: ((m ++ y :: b).set m.length x) = a ++ y :: (m ++ x :: b)
    have h3 : (m ++ y :: b).set m.length x = m ++ x :: b := by
      have h4 := set_append_add m (y :: b) 0 x
      simp only [Nat.add_zero, List.set_cons_zero] at h4
      exact h4
    rw [h3]
  unfold swapIdx
  rw [h1, h2]
  show ((a ++ x :: (m ++ y :: b)).set a.length y).set (a.length + (m.length + 1)) x =
    a ++ y :: (m ++ x :: b)
  rw [hset1, hset2]

/-- Unfolding one iteration of the reverse loop. -/
theorem revAux_succ {α : Type} (l : List α) (n f : Nat) :
    revAux l n (f + 1) = revAux (swapIdx l n (l.length - n - 1)) (n + 1) f := rfl

/-- Running the swap loop for half the length of the middle segment, with
equal-length already-reversed borders on each side, reverses the middle
segment in place. -/
theorem revAux_reverse_middle {α : Type} :
    ∀ (fuel : Nat) (s a b : List α), s.length / 2 = fuel → a.length = b.length →
      revAux (a ++ s ++ b) a.length fuel = a ++ s.reverse ++ b := by
  intro fuel
  induction fuel with
  | zero =>
    intro s a b hs hab
    have hlen : s.length ≤ 1 := by omega
    have hrev : s.reverse = s := by
      cases s with
      | nil => rfl
      | cons x t =>
        cases t with
        | nil => rfl
        | cons u v => simp at hlen
    rw [hrev]
    rfl
  | succ f ih =>
    intro s a b hs hab
    have hslen : 2 ≤ s.length := by omega
    obtain ⟨x, t, rfl⟩ : ∃ x t, s = x :: t := by
      cases s with
      | nil => simp at hslen
      | cons x t => exact ⟨x, t, rfl⟩
    obtain ⟨m, y, rfl⟩ : ∃ m y, t = m ++ [y] := by
      rcases t.eq_nil_or_concat with rfl | ⟨m, y, h⟩
      · simp at hslen
      · exact ⟨m, y, by rw [h, List.concat_eq_append]⟩
    have hm2 : m.length / 2 = f := by
      simp only [List.length_cons, List.length_append, List.length_singleton,
        List.length_nil] at hs
      omega
    have hab2 : (a ++ [y]).length = ([x] ++ b).length := by simp [hab]
    rw [revAux_succ]
    have hll : (a ++ (x :: (m ++ [y])) ++ b).length - a.length - 1 =
        a.length + (m.length + 1) := by
      simp only [List.length_append, List.length_cons, List.length_singleton,
        List.length_nil]
      omega
    have hswap : swapIdx (a ++ (x :: (m ++ [y])) ++ b) a.length (a.length + (m.length + 1)) =
        (a ++ [y]) ++ m ++ ([x] ++ b) := by
      have e1 : a ++ (x :: (m ++ [y])) ++ b = a ++ x :: (m ++ y :: b) := by simp
      have e2 : (a ++ [y]) ++ m ++ ([x] ++ b) = a ++ y :: (m ++ x :: b) := by simp
      rw [e1, e2]
      exact swapIdx_outer a x m y b
    rw [hll, hswap]
    have e4 : a.length + 1 = (a ++ [y]).length := by simp
    rw [e4, ih m (a ++ [y]) ([x] ++ b) hm2 hab2]
    simp

/-- The reverse loop of mangos computes list reversal. -/
theorem reverse_eq_list_reverse {α : Type} (l : List α) : reverse l = l.reverse := by
  have h := revAux_reverse_middle (l.length / 2) l [] [] rfl rfl
  unfold reverse
  simpa using h

/-- Claim C7: applying the in-place reverse of mangos twice restores any
non-empty fixed-size sequence. -/
theorem reverse_reverse_id {α : Type} (l : List α) (_hne : l ≠ []) :
    reverse (reverse l) = l := by
  rw [reverse_eq_list_reverse, reverse_eq_list_reverse, List.reverse_reverse]

/-- Claim C7 witness: the double reverse evaluated on a concrete non-empty
sequence. -/
theorem reverse_reverse_id_witness :
    ([1, 2, 3] : List Nat) ≠ [] ∧ reverse (reverse [1, 2, 3]) = [1, 2, 3] :=
  ⟨by decide, reverse_reverse_id [1, 2, 3] (by decide)⟩

end array

end mangos

namespace mangos

namespace string

/-- The first-not-of search fails exactly when every character of the
string belongs to the set. -/
theorem findFirstNotOf_none_iff (s set : List Char) :
    findFirstNotOf s set = none ↔ ∀ c ∈ s, c ∈ set := by
  induction s with
  | nil => simp [findFirstNotOf]
  | cons a t ih =>
    unfold findFirstNotOf
    by_cases ha : a ∈ set
    · rw [if_pos ha, Option.map_eq_none', ih]
      constructor
      · intro h c hc
        rcases List.mem_cons.mp hc with rfl | hc
        · exact ha
        · exact h c hc
      · intro h c hc
        exact h c (by simp [hc])
    · rw [if_neg ha]
      constructor
      · intro h; cases h
      · intro h; exact absurd (h a (by simp)) ha

/-- A successful first-not-of search points at a character outside the
set: the suffix at the found index starts with such a character. -/
theorem findFirstNotOf_some_head (s set : List Char) :
    ∀ i, findFirstNotOf s set = some i → ∃ c t2, s.drop i = c :: t2 ∧ c ∉ set := by
  induction s with
  | nil => intro i h; cases h
  | cons a t ih =>
    intro i h
    unfold findFirstNotOf at h
    by_cases ha : a ∈ set
    · rw [if_pos ha] at h
      simp only [Option.map_eq_some'] at h
      obtain ⟨j, hj, rfl⟩ := h
      simpa using ih j hj
    · rw [if_neg ha] at h
      cases h
      exact ⟨a, t, rfl, ha⟩

/-- The last-not-of search fails exactly when every character of the
string belongs to the set. -/
theorem findLastNotOf_none_iff (s set : List Char) :
    findLastNotOf s set = none ↔ ∀ c ∈ s, c ∈ set := by
  induction s with
  | nil => simp [findLastNotOf]
  | cons a t ih =>
    unfold findLastNotOf
    cases hft : findLastNotOf t set with
    | some i =>
      constructor
      · intro h; cases h
      · intro h
        have hall : ∀ c ∈ t, c ∈ set := fun c hc => h c (by simp [hc])
        rw [← ih, hft] at hall
        cases hall
    | none =>
      by_cases ha : a ∈ set
      · rw [if_pos ha]
        constructor
        · intro _ c hc
          rcases List.mem_cons.mp hc with rfl | hc
          · exact ha
          · exact (ih.mp hft) c hc
        · intro _; rfl
      · rw [if_neg ha]
        constructor
        · intro h; cases h
        · intro h; exact absurd (h a (by simp)) ha

/-- The last-not-of search on a string ending with a character outside the
set finds exactly that last position. -/
theorem findLastNotOf_concat (set : List Char) (c : Char) (hc : c ∉ set) :
    ∀ a : List Char, findLastNotOf (a ++ [c]) set = some a.length := by
  intro a
  induction a with
  | nil => simp [findLastNotOf, hc]
  | cons d a2 ih =>
    rw [List.cons_append]
    unfold findLastNotOf
    rw [ih]
    simp

/-- A successful last-not-of search decomposes the string: everything past
the found character belongs to the set. -/
theorem findLastNotOf_some_decomp (set : List Char) :
    ∀ s i, findLastNotOf s set = some i →
      ∃ a c b, s = a ++ c :: b ∧ a.length = i ∧ c ∉ set ∧ ∀ x ∈ b, x ∈ set := by
  intro s
  induction s with
  | nil => intro i h; cases h
  | cons d t ih =>
    intro i h
    unfold findLastNotOf at h
    cases hft : findLastNotOf t set with
    | some j =>
      rw [hft] at h
      cases h
      obtain ⟨a, c, b, rfl, hal, hcs, hbs⟩ := ih j hft
      exact ⟨d :: a, c, b, rfl, by simp [hal], hcs, hbs⟩
    | none =>
      rw [hft] at h
      by_cases hd : d ∈ set
      · rw [if_pos hd] at h
        cases h
      · rw [if_neg hd] at h
        cases h
        exact ⟨[], d, t, rfl, rfl, hd, (findLastNotOf_none_iff t set).mp hft⟩

/-- Taking one character past an appended prefix keeps the prefix and that
character. -/
theorem take_length_add_one (a : List Char) (c : Char) (b : List Char) :
    (a ++ c :: b).take (a.length + 1) = a ++ [c] := by
  induction a with
  | nil => rfl
  | cons a0 a2 ih => simp [ih]

/-- Evaluation of trim when both searches succeed. -/
theorem trim_eq_of_found (str : List Char) (i j : Nat)
    (h1 : findFirstNotOf str whitespace = some i)
    (h2 : findLastNotOf (str.drop i) whitespace = some j) :
    trim str = .ok ((str.drop i).take (j + 1)) := by
  simp only [trim, h1, h2]

end string

end mangos

namespace mangos

namespace string

/-- Claim C10: on any text with at least one character outside the
whitespace set, trim returns normally, the result neither starts nor ends
with a whitespace-set character, and trimming again returns the same
result (idempotence on the non-degenerate domain). -/
theorem trim_idempotent_spec (str : List Char) (hstr : ∃ c ∈ str, c ∉ whitespace) :
    ∃ r, trim str = .ok r ∧ trim r = .ok r ∧
      (∀ c, r.head? = some c → c ∉ whitespace) ∧
      (∀ c, r.getLast? = some c → c ∉ whitespace) := by
  have hne : findFirstNotOf str whitespace ≠ none := by
    rw [Ne, findFirstNotOf_none_iff]
    intro h
    obtain ⟨c, hc, hcw⟩ := hstr
    exact hcw (h c hc)
  cases hffo : findFirstNotOf str whitespace with
  | none => exact absurd hffo hne
  | some i =>
    obtain ⟨c0, t0, hdrop, hc0⟩ := findFirstNotOf_some_head str whitespace i hffo
    have hlne : findLastNotOf (str.drop i) whitespace ≠ none := by
      rw [Ne, findLastNotOf_none_iff]
      intro h
      exact hc0 (h c0 (by rw [hdrop]; simp))
    cases hflo : findLastNotOf (str.drop i) whitespace with
    | none => exact absurd hflo hlne
    | some j =>
      obtain ⟨a, c, b, hdecomp, hal, hcs, hbs⟩ :=
        findLastNotOf_some_decomp whitespace (str.drop i) j hflo
      have hr : (str.drop i).take (j + 1) = a ++ [c] := by
        rw [hdecomp, ← hal, take_length_add_one]
      have hhead : ∃ rr, a ++ [c] = c0 :: rr := by
        have hco : a ++ c :: b = c0 :: t0 := hdecomp.symm.trans hdrop
        cases a with
        | nil =>
          have : c = c0 := by simpa using congrArg List.head? hco
          exact ⟨[], by simp [this]⟩
        | cons a0 a2 =>
          have : a0 = c0 := by simpa using congrArg List.head? hco
          exact ⟨a2 ++ [c], by simp [this]⟩
      obtain ⟨rr, hrr⟩ := hhead
      have hc0w : c0 ∉ whitespace := hc0
      have hffo2 : findFirstNotOf (a ++ [c]) whitespace = some 0 := by
        rw [hrr]
        unfold findFirstNotOf
        rw [if_neg hc0w]
      have hflo2 : findLastNotOf ((a ++ [c]).drop 0) whitespace = some a.length :=
        findLastNotOf_concat whitespace c hcs a
      refine ⟨a ++ [c], ?_, ?_, ?_, ?_⟩
      · rw [trim_eq_of_found str i j hffo hflo, hr]
      · rw [trim_eq_of_found (a ++ [c]) 0 a.length hffo2 hflo2]
        have := take_length_add_one a c []
        simp only [List.drop_zero]
        rw [this]
      · intro d hd
        rw [hrr] at hd
        simp only [List.head?_cons, Option.some.injEq] at hd
        rw [← hd]
        exact hc0w
      · intro d hd
        rw [List.getLast?_concat] at hd
        simp only [Option.some.injEq] at hd
        rw [← hd]
        exact hcs

/-- Claim C10 witness: trim idempotence evaluated on a concrete
non-degenerate text. -/
theorem trim_idempotent_spec_witness :
    (∃ c ∈ ([' ', 'h', 'i', ' '] : List Char), c ∉ whitespace) ∧
    ∃ r, trim [' ', 'h', 'i', ' '] = .ok r ∧ trim r = .ok r ∧
      (∀ c, r.head? = some c → c ∉ whitespace) ∧
      (∀ c, r.getLast? = some c → c ∉ whitespace) :=
  ⟨by decide, trim_idempotent_spec [' ', 'h', 'i', ' '] (by decide)⟩

end string

end mangos
